import Mathlib

/-!
Verification of the TRAVEL_PLANNER core algorithms (quota allocation,
sequence building, weather adaptation, candidate scoring, greedy routing,
itinerary assembly) against their natural-language specification.

The Python source is shallowly embedded: integers are `ℤ`, Python floats
(used only for exact decimal/ratio arithmetic in the code paths modelled
here) are `ℚ`, Python's stable `sorted`/`list.sort` is `List.insertionSort`
with a total preorder (any two stable sorts with respect to the same total
preorder agree), and Python dicts that are built once and then updated
in insertion order are association lists.
-/

-- Rational arithmetic must reduce for concrete evaluation of the embedding.
set_option maxRecDepth 8000

attribute [local semireducible] Rat.mul Rat.inv Rat.add Rat.sub Rat.ofScientific

namespace TravelPlanner

/-- Python compares strings lexicographically by code point. `String.le`
denotes the same order but is not kernel-reducible, so the embedding uses
this structurally recursive comparison on the underlying character lists. -/
def charListLE : List Char → List Char → Bool
  | [], _ => true
  | _ :: _, [] => false
  | a :: as, b :: bs => if a = b then charListLE as bs else decide (a < b)

/-- Python's `s1 <= s2` on strings. -/
abbrev pyStrLE (a b : String) : Prop := charListLE a.data b.data = true

/-- Total weight `sum(w for _, w in weights)` in `proportional_quotas`
(src/python/planner/preferences.py line 22). -/
def totalWeight (weights : List (String × ℤ)) : ℤ := (weights.map Prod.snd).sum

/-- Raw proportional share `(n_total * w) / total_w`
(src/python/planner/preferences.py line 25); Python float division is
modelled as exact rational division. -/
def rawShare (n_total tw w : ℤ) : ℚ := ((n_total * w : ℤ) : ℚ) / ((tw : ℤ) : ℚ)

/-- Order used by `sorted(((raw[c] - base[c], c) ...), reverse=True)`
(src/python/planner/preferences.py line 29): descending lexicographic on
the pair (fractional remainder, category name). -/
abbrev fracGE (a b : ℚ × String) : Prop := b.1 < a.1 ∨ (a.1 = b.1 ∧ pyStrLE b.2 a.2)

/-- Floored base allocation `{c: floor(v) for c, v in raw.items()}`
(src/python/planner/preferences.py line 26), in dict insertion order. -/
def baseOf (weights : List (String × ℤ)) (n_total : ℤ) : List (String × ℤ) :=
  weights.map fun p => (p.1, ⌊rawShare n_total (totalWeight weights) p.2⌋)

/-- Remainder `rem = n_total - sum(base.values())`
(src/python/planner/preferences.py line 27). -/
def remOf (weights : List (String × ℤ)) (n_total : ℤ) : ℤ :=
  n_total - ((baseOf weights n_total).map Prod.snd).sum

/-- The list `frac` of (fractional remainder, category) pairs sorted in
descending order (src/python/planner/preferences.py line 29). -/
def fracList (weights : List (String × ℤ)) (n_total : ℤ) : List (ℚ × String) :=
  List.insertionSort fracGE <| weights.map fun p =>
    (rawShare n_total (totalWeight weights) p.2 -
      ((⌊rawShare n_total (totalWeight weights) p.2⌋ : ℤ) : ℚ), p.1)

/-- One step `base[frac[i % len(frac)][1]] += 1`
(src/python/planner/preferences.py line 31) on the association list. -/
def bumpKey (l : List (String × ℤ)) (c : String) : List (String × ℤ) :=
  l.map fun p => if p.1 = c then (p.1, p.2 + 1) else p

/-- Embeds `proportional_quotas(weights, n_total)`
(src/python/planner/preferences.py lines 21-32). -/
def proportional_quotas (weights : List (String × ℤ)) (n_total : ℤ) : List (String × ℤ) :=
  if totalWeight weights = 0 ∨ n_total ≤ 0 then
    weights.map fun p => (p.1, 0)
  else
    let base := baseOf weights n_total
    let rem := remOf weights n_total
    if 0 < rem then
      let frac := fracList weights n_total
      (List.range rem.toNat).foldl
        (fun acc i => bumpKey acc (frac.getD (i % frac.length) (0, "")).2) base
    else base

theorem bumpKey_keys (l : List (String × ℤ)) (c : String) :
    (bumpKey l c).map Prod.fst = l.map Prod.fst := by
  induction l with
  | nil => rfl
  | cons p t ih =>
    simp only [bumpKey, List.map_cons, List.map_map] at ih ⊢
    by_cases h : p.1 = c <;> simp [h, ih]

theorem bumpKey_of_not_mem {l : List (String × ℤ)} {c : String}
    (h : c ∉ l.map Prod.fst) : bumpKey l c = l := by
  induction l with
  | nil => rfl
  | cons p t ih =>
    simp only [List.map_cons, List.mem_cons] at h
    push_neg at h
    simp only [bumpKey, List.map_cons] at ih ⊢
    rw [if_neg (fun hc => h.1 hc.symm)]
    rw [ih h.2]

theorem bumpKey_cons (p : String × ℤ) (t : List (String × ℤ)) (c : String) :
    bumpKey (p :: t) c = (if p.1 = c then (p.1, p.2 + 1) else p) :: bumpKey t c := rfl

theorem bumpKey_sum {l : List (String × ℤ)} {c : String}
    (hnd : (l.map Prod.fst).Nodup) (hc : c ∈ l.map Prod.fst) :
    ((bumpKey l c).map Prod.snd).sum = (l.map Prod.snd).sum + 1 := by
  induction l with
  | nil => simp at hc
  | cons p t ih =>
    simp only [List.map_cons, List.nodup_cons, List.mem_cons] at hnd hc
    rw [bumpKey_cons]
    by_cases h : p.1 = c
    · have hnt : c ∉ t.map Prod.fst := h ▸ hnd.1
      rw [if_pos h, bumpKey_of_not_mem hnt]
      simp only [List.map_cons, List.sum_cons]
      ring
    · have hct : c ∈ t.map Prod.fst := hc.resolve_left (fun e => h e.symm)
      rw [if_neg h]
      simp only [List.map_cons, List.sum_cons]
      rw [ih hnd.2 hct]
      ring

theorem bumpKey_nonneg {l : List (String × ℤ)} {c : String}
    (h : ∀ p ∈ l, 0 ≤ p.2) : ∀ p ∈ bumpKey l c, 0 ≤ p.2 := by
  intro p hp
  simp only [bumpKey, List.mem_map] at hp
  obtain ⟨q, hq, he⟩ := hp
  by_cases hqc : q.1 = c
  · rw [← he, if_pos hqc]
    show (0:ℤ) ≤ q.2 + 1
    have := h q hq
    omega
  · rw [← he, if_neg hqc]
    exact h q hq

theorem foldl_bump_keys (k : ℕ → String) :
    ∀ (is : List ℕ) (acc : List (String × ℤ)),
      ((is.foldl (fun a i => bumpKey a (k i)) acc).map Prod.fst) = acc.map Prod.fst := by
  intro is
  induction is with
  | nil => intro acc; rfl
  | cons i t ih =>
    intro acc
    simp only [List.foldl_cons]
    rw [ih, bumpKey_keys]

theorem foldl_bump_sum (k : ℕ → String) :
    ∀ (is : List ℕ) (acc : List (String × ℤ)),
      (acc.map Prod.fst).Nodup → (∀ i ∈ is, k i ∈ acc.map Prod.fst) →
      ((is.foldl (fun a i => bumpKey a (k i)) acc).map Prod.snd).sum
        = (acc.map Prod.snd).sum + is.length := by
  intro is
  induction is with
  | nil => intro acc _ _; simp
  | cons i t ih =>
    intro acc hnd hmem
    simp only [List.foldl_cons, List.length_cons]
    rw [ih (bumpKey acc (k i))
        (by rw [bumpKey_keys]; exact hnd)
        (by intro j hj; rw [bumpKey_keys]; exact hmem j (List.mem_cons_of_mem _ hj))]
    rw [bumpKey_sum hnd (hmem i (List.mem_cons_self _ _))]
    push_cast
    ring

theorem foldl_bump_nonneg (k : ℕ → String) :
    ∀ (is : List ℕ) (acc : List (String × ℤ)),
      (∀ p ∈ acc, 0 ≤ p.2) →
      ∀ p ∈ is.foldl (fun a i => bumpKey a (k i)) acc, 0 ≤ p.2 := by
  intro is
  induction is with
  | nil => intro acc h; exact h
  | cons i t ih =>
    intro acc h
    simp only [List.foldl_cons]
    exact ih _ (bumpKey_nonneg h)

theorem sum_rawShare_aux (n T : ℤ) (l : List (String × ℤ)) :
    (l.map fun p => rawShare n T p.2).sum
      = ((n : ℚ) / ((T : ℤ) : ℚ)) * (((l.map Prod.snd).sum : ℤ) : ℚ) := by
  induction l with
  | nil => simp
  | cons p t ih =>
    simp only [List.map_cons, List.sum_cons]
    rw [ih, rawShare]
    push_cast
    ring

theorem sum_rawShare {weights : List (String × ℤ)} {n_total : ℤ}
    (hT : totalWeight weights ≠ 0) :
    (weights.map fun p => rawShare n_total (totalWeight weights) p.2).sum = (n_total : ℚ) := by
  have hTQ : ((totalWeight weights : ℤ) : ℚ) ≠ 0 := Int.cast_ne_zero.mpr hT
  rw [sum_rawShare_aux]
  rw [show ((weights.map Prod.snd).sum : ℤ) = totalWeight weights from rfl]
  field_simp

theorem baseOf_snd (weights : List (String × ℤ)) (n_total : ℤ) :
    (baseOf weights n_total).map Prod.snd
      = weights.map fun p => ⌊rawShare n_total (totalWeight weights) p.2⌋ := by
  rw [baseOf, List.map_map]
  rfl

theorem sum_base_le {weights : List (String × ℤ)} {n_total : ℤ}
    (hT : totalWeight weights ≠ 0) :
    ((baseOf weights n_total).map Prod.snd).sum ≤ n_total := by
  have key : ∀ l : List (String × ℤ),
      (((l.map fun p => ⌊rawShare n_total (totalWeight weights) p.2⌋).sum : ℤ) : ℚ)
        ≤ (l.map fun p => rawShare n_total (totalWeight weights) p.2).sum := by
    intro l
    induction l with
    | nil => simp
    | cons p t ih =>
      simp only [List.map_cons, List.sum_cons, Int.cast_add]
      exact add_le_add (Int.floor_le _) ih
  have h1 : (((baseOf weights n_total).map Prod.snd).sum : ℚ) ≤ (n_total : ℚ) := by
    rw [baseOf_snd]
    calc (((weights.map fun p => ⌊rawShare n_total (totalWeight weights) p.2⌋).sum : ℤ) : ℚ)
        ≤ (weights.map fun p => rawShare n_total (totalWeight weights) p.2).sum := key weights
      _ = (n_total : ℚ) := sum_rawShare hT
  exact_mod_cast h1

theorem remOf_nonneg {weights : List (String × ℤ)} {n_total : ℤ}
    (hT : totalWeight weights ≠ 0) : 0 ≤ remOf weights n_total := by
  have := @sum_base_le weights n_total hT
  simp only [remOf]
  omega

theorem baseOf_keys (weights : List (String × ℤ)) (n_total : ℤ) :
    (baseOf weights n_total).map Prod.fst = weights.map Prod.fst := by
  rw [baseOf, List.map_map]
  rfl

theorem fracList_mem_keys {weights : List (String × ℤ)} {n_total : ℤ}
    {q : ℚ × String} (h : q ∈ fracList weights n_total) :
    q.2 ∈ weights.map Prod.fst := by
  rw [fracList] at h
  have h2 := (List.perm_insertionSort fracGE _).subset h
  simp only [List.mem_map] at h2 ⊢
  obtain ⟨p, hp, he⟩ := h2
  exact ⟨p, hp, by rw [← he]⟩

theorem fracList_length (weights : List (String × ℤ)) (n_total : ℤ) :
    (fracList weights n_total).length = weights.length := by
  rw [fracList]
  rw [(List.perm_insertionSort fracGE _).length_eq]
  simp

theorem getD_mem {α : Type} {l : List α} {i : ℕ} (d : α) (h : i < l.length) :
    l.getD i d ∈ l := by
  rw [List.getD_eq_getElem?_getD]
  rw [List.getElem?_eq_getElem h]
  exact List.getElem_mem _

/-- Core facts about `proportional_quotas`: keys are preserved, the zero
branch returns all-zero quotas, and in the positive branch quotas are
non-negative (for non-negative weights) and sum to exactly `n_total`. -/
theorem proportional_quotas_keys (weights : List (String × ℤ)) (n_total : ℤ) :
    (proportional_quotas weights n_total).map Prod.fst = weights.map Prod.fst := by
  rw [proportional_quotas]
  by_cases h : totalWeight weights = 0 ∨ n_total ≤ 0
  · rw [if_pos h, List.map_map]
    rfl
  · rw [if_neg h]
    by_cases hr : 0 < remOf weights n_total
    · simp only [if_pos hr]
      rw [foldl_bump_keys, baseOf_keys]
    · simp only [if_neg hr]
      exact baseOf_keys _ _

theorem proportional_quotas_zero {weights : List (String × ℤ)} {n_total : ℤ}
    (h : totalWeight weights = 0 ∨ n_total ≤ 0) :
    ∀ p ∈ proportional_quotas weights n_total, p.2 = 0 := by
  intro p hp
  rw [proportional_quotas, if_pos h] at hp
  simp only [List.mem_map] at hp
  obtain ⟨q, _, he⟩ := hp
  rw [← he]

theorem proportional_quotas_sum {weights : List (String × ℤ)} {n_total : ℤ}
    (hnd : (weights.map Prod.fst).Nodup)
    (hT : totalWeight weights ≠ 0) (hn : 0 < n_total) :
    ((proportional_quotas weights n_total).map Prod.snd).sum = n_total := by
  have hno : ¬ (totalWeight weights = 0 ∨ n_total ≤ 0) := by
    push_neg
    exact ⟨hT, hn⟩
  rw [proportional_quotas, if_neg hno]
  by_cases hr : 0 < remOf weights n_total
  · simp only [if_pos hr]
    have hwne : weights ≠ [] := by
      intro he
      exact hT (by simp [totalWeight, he])
    have hflen : 0 < (fracList weights n_total).length := by
      rw [fracList_length]
      cases weights with
      | nil => exact absurd rfl hwne
      | cons a t => simp
    rw [foldl_bump_sum _ _ _
        (by rw [baseOf_keys]; exact hnd)
        (by
          intro i _
          rw [baseOf_keys]
          exact fracList_mem_keys (getD_mem _ (Nat.mod_lt _ hflen)))]
    simp only [List.length_range]
    have h0 := @remOf_nonneg weights n_total hT
    simp only [remOf] at h0 hr ⊢
    omega
  · simp only [if_neg hr]
    have h0 := @remOf_nonneg weights n_total hT
    simp only [remOf] at h0 hr
    omega

theorem proportional_quotas_nonneg {weights : List (String × ℤ)} {n_total : ℤ}
    (hw : ∀ p ∈ weights, 0 ≤ p.2) (hT : totalWeight weights ≠ 0) (hn : 0 < n_total) :
    ∀ p ∈ proportional_quotas weights n_total, 0 ≤ p.2 := by
  have hTpos : 0 < totalWeight weights := by
    rcases lt_or_eq_of_le (List.sum_nonneg (by
      intro x hx
      simp only [List.mem_map] at hx
      obtain ⟨p, hp, he⟩ := hx
      rw [← he]
      exact hw p hp) : (0:ℤ) ≤ (weights.map Prod.snd).sum) with h | h
    · exact h
    · exact absurd h.symm hT
  have hbase : ∀ p ∈ baseOf weights n_total, 0 ≤ p.2 := by
    intro p hp
    simp only [baseOf, List.mem_map] at hp
    obtain ⟨q, hq, he⟩ := hp
    rw [← he]
    simp only
    apply Int.floor_nonneg.mpr
    apply div_nonneg
    · have : (0:ℤ) ≤ n_total * q.2 := mul_nonneg (le_of_lt hn) (hw q hq)
      exact_mod_cast this
    · exact_mod_cast le_of_lt hTpos
  have hno : ¬ (totalWeight weights = 0 ∨ n_total ≤ 0) := by
    push_neg
    exact ⟨hT, hn⟩
  rw [proportional_quotas, if_neg hno]
  by_cases hr : 0 < remOf weights n_total
  · simp only [if_pos hr]
    exact foldl_bump_nonneg _ _ _ hbase
  · simp only [if_neg hr]
    exact hbase

/-- C1: for distinct categories and non-negative integer weights, if the
total weight is 0 or `n_total ≤ 0` then every quota is 0; otherwise the
quotas are non-negative and sum to exactly `n_total`. -/
theorem quota_allocator_contract (weights : List (String × ℤ)) (n_total : ℤ)
    (hnd : (weights.map Prod.fst).Nodup) (hw : ∀ p ∈ weights, 0 ≤ p.2) :
    ((totalWeight weights = 0 ∨ n_total ≤ 0) →
        ∀ p ∈ proportional_quotas weights n_total, p.2 = 0) ∧
    (totalWeight weights ≠ 0 → 0 < n_total →
        (∀ p ∈ proportional_quotas weights n_total, 0 ≤ p.2) ∧
        ((proportional_quotas weights n_total).map Prod.snd).sum = n_total) := by
  constructor
  · intro h
    exact proportional_quotas_zero h
  · intro hT hn
    exact ⟨proportional_quotas_nonneg hw hT hn, proportional_quotas_sum hnd hT hn⟩

/-- Witness for C1 at a concrete input. -/
theorem quota_allocator_contract_witness :
    ((proportional_quotas [("a", 1), ("b", 2)] 4).map Prod.snd).sum = 4 :=
  ((quota_allocator_contract [("a", 1), ("b", 2)] 4 (by decide) (by decide)).2
    (by decide) (by decide)).2

/-- C2 counterexample: for weights romantic 5, scenic 3, cafes 2 and
`n_total = 5`, the source's `sorted(..., reverse=True)` sorts the
(fraction, name) pairs descending in BOTH components, so the 0.5-fraction
tie between "romantic" and "scenic" is won by "scenic" (the larger name),
and romantic ends at 2, not 3 as the claim states. -/
theorem remainder_tiebreak_counterexample :
    (proportional_quotas [("romantic", 5), ("scenic", 3), ("cafes", 2)] 5).lookup ("romantic")
      ≠ some 3 := by
  decide

/-- C2 amended: the remainder units go to the categories with the largest
fractional remainder, with ties broken by category name DESCENDING; for
weights romantic 5, scenic 3, cafes 2 and `n_total = 5` the returned
quotas are romantic 2, scenic 2, cafes 1 (scenic receives the remainder
unit); on a pure two-way tie with equal weights the lexicographically
larger name receives the unit first. -/
theorem remainder_tiebreak_descending :
    proportional_quotas [("romantic", 5), ("scenic", 3), ("cafes", 2)] 5
      = [("romantic", 2), ("scenic", 2), ("cafes", 1)] ∧
    proportional_quotas [("a", 1), ("b", 1)] 1 = [("a", 0), ("b", 1)] := by
  constructor
  · decide
  · decide

/-- One row of the loaded preference table `PREFS`
(src/python/planner/preferences.py lines 7-19): traveler type, normalized
category (`cat_norm`, already lowercased with spaces replaced), and the
integer weight. The CSV itself is data, not code; rows are quantified. -/
structure Row where
  traveler_type : String
  cat_norm : String
  weight : ℤ
deriving DecidableEq

/-- Python's `str.lower()` (used on ASCII traveler-type names), modelled
character-wise so that it is kernel-reducible. -/
def pyLower (s : String) : String := ⟨s.data.map Char.toLower⟩

/-- The filter `PREFS.loc[PREFS["traveler_type"].str.lower() == traveler_type.lower()]`
(src/python/planner/preferences.py line 35). -/
def tprefsOf (prefs : List Row) (t : String) : List Row :=
  prefs.filter fun r => pyLower r.traveler_type == pyLower t

/-- Group keys of `tprefs.groupby(["cat_norm"])`: the distinct normalized
categories, in ascending order (pandas sorts group keys). -/
def catKeys (rows : List Row) : List String :=
  List.insertionSort pyStrLE (rows.map Row.cat_norm).dedup

/-- Per-group maximum weight computed by `groupby(...)["weight"].max()`
(src/python/planner/preferences.py lines 39-41). -/
def maxWeight (rows : List Row) (c : String) : ℤ :=
  (((rows.filter fun r => r.cat_norm == c).map Row.weight).max?).getD 0

/-- Order of `.sort_values(["weight","cat_norm"], ascending=[False,True])`
and also of the per-step candidate sort
`sorted(quotas.items(), key=lambda kv: (-kv[1], -weight_map.get(kv, -inf), kv))`
(src/python/planner/preferences.py lines 42 and 56): value descending,
then name ascending. In the per-step sort the middle key
`-weight_map.get(kv, -inf)` probes the category-keyed dict with the whole
`(category, count)` pair, so the lookup always misses, the component is
the constant `+inf` for every entry, and the effective order is quota
descending then `kv` ascending, i.e. category name ascending. -/
abbrev quotaNameGE (a b : String × ℤ) : Prop := b.2 < a.2 ∨ (a.2 = b.2 ∧ pyStrLE a.1 b.1)

/-- Grouped, sorted `(cat_norm, weight)` list `weights`
(src/python/planner/preferences.py lines 39-44). -/
def weightsOf (prefs : List Row) (t : String) : List (String × ℤ) :=
  List.insertionSort quotaNameGE
    ((catKeys (tprefsOf prefs t)).map fun c => (c, maxWeight (tprefsOf prefs t) c))

/-- Embeds `n_keep = max(int(days) * 3 - 1, 0)` (src/python/planner/preferences.py line 47). -/
def n_keepOf (days : ℤ) : ℤ := max (days * 3 - 1) 0

/-- Embeds `{c: q for c, q in quotas.items() if q > 0}` (src/python/planner/preferences.py line 52). -/
def posQuotas (l : List (String × ℤ)) : List (String × ℤ) := l.filter fun p => decide (0 < p.2)

/-- Python's `max(quotas.items(), key=lambda kv: (kv[1], weight_map.get(kv, -inf)))`
(src/python/planner/preferences.py line 67). The middle lookup again probes
with the pair and is constantly `-inf`, so this is the first item of
maximal quota in insertion order (`max` keeps the earliest maximum). -/
def argmaxQ : List (String × ℤ) → Option (String × ℤ)
  | [] => none
  | h :: t => some (t.foldl (fun best p => if best.2 < p.2 then p else best) h)

/-- The update `quotas[cat] = q - 1; if quotas[cat] <= 0: del quotas[cat]`
(src/python/planner/preferences.py lines 61-62 and 69-70). -/
def decQuota (quotas : List (String × ℤ)) (c : String) : List (String × ℤ) :=
  quotas.filterMap fun p =>
    if p.1 = c then (if p.2 - 1 ≤ 0 then none else some (p.1, p.2 - 1)) else some p

/-- One iteration of the placement loop
(src/python/planner/preferences.py lines 55-67): the first sorted
candidate different from `last` with positive quota, else the fallback
`max` (the loop's `for ... break / if not placed` structure). -/
def pickCat (quotas : List (String × ℤ)) (last : Option String) : Option (String × ℤ) :=
  match (List.insertionSort quotaNameGE quotas).find?
      (fun p => decide (some p.1 ≠ last) && decide (0 < p.2)) with
  | some p => some p
  | none => argmaxQ quotas

/-- The `while len(result) < n_keep and quotas:` loop
(src/python/planner/preferences.py lines 54-71), instrumented to record,
for each placement, the remaining-quota state before the placement
together with the category placed. The fuel counts the placements still
allowed, i.e. `n_keep - len(result)`; the loop also stops when the quota
dict becomes empty (`pickCat` returns `none` exactly on the empty dict). -/
def buildTrace : ℕ → List (String × ℤ) → Option String → List (List (String × ℤ) × String)
  | 0, _, _ => []
  | fuel + 1, quotas, last =>
    match pickCat quotas last with
    | none => []
    | some p => (quotas, p.1) :: buildTrace fuel (decQuota quotas p.1) (some p.1)

/-- The run of `build_weighted_sequence` up to the final `result[:n_keep]`,
with the two early returns (`tprefs.empty`, `n_keep == 0`) of
src/python/planner/preferences.py lines 36-49. -/
def build_trace (prefs : List Row) (t : String) (days : ℤ) : List (List (String × ℤ) × String) :=
  if tprefsOf prefs t = [] then []
  else if n_keepOf days = 0 then []
  else
    buildTrace (n_keepOf days).toNat
      (posQuotas (proportional_quotas (weightsOf prefs t) (n_keepOf days))) none

/-- Embeds `build_weighted_sequence(traveler_type, days)`
(src/python/planner/preferences.py lines 34-72): the recorded placements,
truncated by the final `result[:n_keep]`. -/
def build_weighted_sequence (prefs : List Row) (t : String) (days : ℤ) : List String :=
  ((build_trace prefs t days).map Prod.snd).take (n_keepOf days).toNat

/-- Embeds `sequence_to_days(seq, days)` (src/python/planner/preferences.py lines 74-80). -/
def sequence_to_days (seq : List String) (days : ℤ) : List (List String) :=
  (List.range days.toNat).map fun d => (seq.drop (3 * d)).take 3

theorem foldl_max_mem {α : Type} (f : α → α → α)
    (hf : ∀ a b, f a b = a ∨ f a b = b) :
    ∀ (t : List α) (a : α), t.foldl f a ∈ a :: t := by
  intro t
  induction t with
  | nil => intro a; exact List.mem_singleton.mpr rfl
  | cons q t' ih =>
    intro a
    simp only [List.foldl_cons]
    rcases hf a q with h | h <;> rw [h]
    · have h1 := ih a
      simp only [List.mem_cons] at h1 ⊢
      tauto
    · have h1 := ih q
      simp only [List.mem_cons] at h1 ⊢
      tauto

theorem argmaxQ_mem {quotas : List (String × ℤ)} {p : String × ℤ}
    (h : argmaxQ quotas = some p) : p ∈ quotas := by
  cases quotas with
  | nil => simp [argmaxQ] at h
  | cons a t =>
    simp only [argmaxQ, Option.some.injEq] at h
    have := foldl_max_mem (fun best q => if best.2 < q.2 then q else best)
      (by
        intro x y
        by_cases hxy : x.2 < y.2
        · right; simp [hxy]
        · left; simp [hxy]) t a
    rw [h] at this
    exact this

theorem pickCat_mem {quotas : List (String × ℤ)} {last : Option String} {p : String × ℤ}
    (h : pickCat quotas last = some p) : p ∈ quotas := by
  rw [pickCat] at h
  cases hf : (List.insertionSort quotaNameGE quotas).find?
      (fun p => decide (some p.1 ≠ last) && decide (0 < p.2)) with
  | some q =>
    rw [hf] at h
    cases h
    exact (List.perm_insertionSort quotaNameGE quotas).subset (List.mem_of_find?_eq_some hf)
  | none =>
    rw [hf] at h
    exact argmaxQ_mem h

theorem pickCat_isSome {quotas : List (String × ℤ)} {last : Option String}
    (h : quotas ≠ []) : ∃ p, pickCat quotas last = some p := by
  rw [pickCat]
  cases hf : (List.insertionSort quotaNameGE quotas).find?
      (fun p => decide (some p.1 ≠ last) && decide (0 < p.2)) with
  | some q => exact ⟨q, rfl⟩
  | none =>
    cases hq : quotas with
    | nil => exact absurd hq h
    | cons a t => exact ⟨_, rfl⟩

theorem pickCat_none {quotas : List (String × ℤ)} {last : Option String}
    (h : pickCat quotas last = none) : quotas = [] := by
  by_contra hne
  obtain ⟨p, hp⟩ := @pickCat_isSome _ last hne
  rw [hp] at h
  cases h

/-- A repeat placement is only possible when every remaining category
equals the previous one: if the sorted scan found no admissible category,
the `find?` predicate fails for every entry. -/
theorem pickCat_repeat {quotas : List (String × ℤ)} {c : String} {p : String × ℤ}
    (hpos : ∀ q ∈ quotas, 0 < q.2)
    (h : pickCat quotas (some c) = some p) (hpc : p.1 = c) :
    ∀ q ∈ quotas, q.1 = c := by
  rw [pickCat] at h
  cases hf : (List.insertionSort quotaNameGE quotas).find?
      (fun p => decide (some p.1 ≠ some c) && decide (0 < p.2)) with
  | some q =>
    rw [hf] at h
    cases h
    have := List.find?_some hf
    simp only [Bool.and_eq_true, decide_eq_true_eq] at this
    exact absurd (by rw [hpc] : some p.1 = some c) this.1
  | none =>
    intro q hq
    have hq' : q ∈ List.insertionSort quotaNameGE quotas :=
      (List.perm_insertionSort quotaNameGE quotas).mem_iff.mpr hq
    have := List.find?_eq_none.mp hf q hq'
    simp only [Bool.and_eq_true, decide_eq_true_eq] at this
    by_contra hne
    exact this ⟨by simpa using hne, hpos q hq⟩

theorem decQuota_cons (e : String × ℤ) (t : List (String × ℤ)) (c : String) :
    decQuota (e :: t) c =
      (if e.1 = c then (if e.2 - 1 ≤ 0 then [] else [(e.1, e.2 - 1)]) else [e]) ++ decQuota t c := by
  rw [decQuota, List.filterMap_cons]
  by_cases h : e.1 = c
  · rw [if_pos h, if_pos h]
    by_cases h2 : e.2 - 1 ≤ 0
    · rw [if_pos h2, if_pos h2]
      rfl
    · rw [if_neg h2, if_neg h2]
      rfl
  · rw [if_neg h, if_neg h]
    rfl

theorem decQuota_of_not_mem {quotas : List (String × ℤ)} {c : String}
    (h : c ∉ quotas.map Prod.fst) : decQuota quotas c = quotas := by
  induction quotas with
  | nil => rfl
  | cons e t ih =>
    simp only [List.map_cons, List.mem_cons] at h
    push_neg at h
    rw [decQuota_cons, if_neg (fun he => h.1 he.symm), ih h.2]
    rfl

theorem decQuota_pos {quotas : List (String × ℤ)} {c : String}
    (hpos : ∀ p ∈ quotas, 0 < p.2) : ∀ p ∈ decQuota quotas c, 0 < p.2 := by
  induction quotas with
  | nil => intro p hp; simp [decQuota] at hp
  | cons e t ih =>
    intro p hp
    rw [decQuota_cons] at hp
    have hpos' : ∀ p ∈ t, 0 < p.2 := fun q hq => hpos q (List.mem_cons_of_mem _ hq)
    rcases List.mem_append.mp hp with h | h
    · by_cases he : e.1 = c
      · rw [if_pos he] at h
        by_cases h2 : e.2 - 1 ≤ 0
        · rw [if_pos h2] at h
          simp at h
        · rw [if_neg h2] at h
          simp only [List.mem_singleton] at h
          rw [h]
          omega
      · rw [if_neg he] at h
        simp only [List.mem_singleton] at h
        rw [h]
        exact hpos e (List.mem_cons_self _ _)
    · exact ih hpos' p h

theorem decQuota_keys_sublist (quotas : List (String × ℤ)) (c : String) :
    List.Sublist ((decQuota quotas c).map Prod.fst) (quotas.map Prod.fst) := by
  induction quotas with
  | nil => simp [decQuota]
  | cons e t ih =>
    rw [decQuota_cons, List.map_append, List.map_cons]
    by_cases he : e.1 = c
    · rw [if_pos he]
      by_cases h2 : e.2 - 1 ≤ 0
      · rw [if_pos h2]
        simp only [List.map_nil, List.nil_append]
        exact ih.cons _
      · rw [if_neg h2]
        simp only [List.map_cons, List.map_nil, List.cons_append, List.nil_append]
        exact ih.cons₂ _
    · rw [if_neg he]
      simp only [List.map_cons, List.map_nil, List.cons_append, List.nil_append]
      exact ih.cons₂ _

theorem decQuota_sum {quotas : List (String × ℤ)} {c : String}
    (hnd : (quotas.map Prod.fst).Nodup) (hpos : ∀ p ∈ quotas, 0 < p.2)
    (hc : c ∈ quotas.map Prod.fst) :
    ((decQuota quotas c).map Prod.snd).sum = (quotas.map Prod.snd).sum - 1 := by
  induction quotas with
  | nil => simp at hc
  | cons e t ih =>
    simp only [List.map_cons, List.nodup_cons, List.mem_cons] at hnd hc
    have hpos' : ∀ p ∈ t, 0 < p.2 := fun q hq => hpos q (List.mem_cons_of_mem _ hq)
    rw [decQuota_cons]
    by_cases he : e.1 = c
    · have hnt : c ∉ t.map Prod.fst := he ▸ hnd.1
      rw [if_pos he, decQuota_of_not_mem hnt]
      have hepos := hpos e (List.mem_cons_self _ _)
      by_cases h2 : e.2 - 1 ≤ 0
      · rw [if_pos h2]
        simp only [List.nil_append, List.map_cons, List.sum_cons]
        omega
      · rw [if_neg h2]
        simp only [List.cons_append, List.nil_append, List.map_cons, List.sum_cons]
        omega
    · have hct : c ∈ t.map Prod.fst := hc.resolve_left (fun h => he h.symm)
      rw [if_neg he]
      simp only [List.cons_append, List.nil_append, List.map_cons, List.sum_cons]
      rw [ih hnd.2 hpos' hct]
      omega

theorem buildTrace_length :
    ∀ (fuel : ℕ) (quotas : List (String × ℤ)) (last : Option String),
      (∀ p ∈ quotas, 0 < p.2) → (quotas.map Prod.fst).Nodup →
      (fuel : ℤ) ≤ (quotas.map Prod.snd).sum →
      (buildTrace fuel quotas last).length = fuel := by
  intro fuel
  induction fuel with
  | zero => intro quotas last _ _ _; rfl
  | succ n ih =>
    intro quotas last hpos hnd hsum
    have hne : quotas ≠ [] := by
      intro he
      rw [he] at hsum
      simp at hsum
      omega
    obtain ⟨p, hp⟩ := @pickCat_isSome _ last hne
    rw [buildTrace, hp]
    have hpmem := pickCat_mem hp
    have hkey : p.1 ∈ quotas.map Prod.fst := List.mem_map.mpr ⟨p, hpmem, rfl⟩
    simp only [List.length_cons]
    rw [ih (decQuota quotas p.1) (some p.1)
        (decQuota_pos hpos)
        (hnd.sublist (decQuota_keys_sublist quotas p.1))
        (by
          rw [decQuota_sum hnd hpos hkey]
          push_cast at hsum ⊢
          omega)]

theorem posQuotas_pos (l : List (String × ℤ)) : ∀ p ∈ posQuotas l, 0 < p.2 := by
  intro p hp
  rw [posQuotas] at hp
  have := List.of_mem_filter hp
  simpa using this

theorem posQuotas_keys_sublist (l : List (String × ℤ)) :
    List.Sublist ((posQuotas l).map Prod.fst) (l.map Prod.fst) :=
  (List.filter_sublist l).map Prod.fst

theorem posQuotas_sum {l : List (String × ℤ)} (h : ∀ p ∈ l, 0 ≤ p.2) :
    ((posQuotas l).map Prod.snd).sum = (l.map Prod.snd).sum := by
  induction l with
  | nil => rfl
  | cons e t ih =>
    have h' : ∀ p ∈ t, 0 ≤ p.2 := fun q hq => h q (List.mem_cons_of_mem _ hq)
    have he := h e (List.mem_cons_self _ _)
    rw [posQuotas, List.filter_cons]
    by_cases hp : 0 < e.2
    · rw [if_pos (by simpa using hp)]
      simp only [List.map_cons, List.sum_cons]
      rw [show List.filter (fun p => decide (0 < p.2)) t = posQuotas t from rfl, ih h']
    · rw [if_neg (by simpa using hp)]
      have he0 : e.2 = 0 := le_antisymm (by omega) he
      simp only [List.map_cons, List.sum_cons]
      rw [show List.filter (fun p => decide (0 < p.2)) t = posQuotas t from rfl, ih h', he0]
      omega

theorem le_foldl_max :
    ∀ (t : List ℤ) (a : ℤ), a ≤ t.foldl max a ∧ ∀ b ∈ t, b ≤ t.foldl max a := by
  intro t
  induction t with
  | nil => intro a; exact ⟨le_refl _, by simp⟩
  | cons q t' ih =>
    intro a
    simp only [List.foldl_cons]
    obtain ⟨h1, h2⟩ := ih (max a q)
    refine ⟨le_trans (le_max_left _ _) h1, ?_⟩
    intro b hb
    rcases List.mem_cons.mp hb with rfl | hb
    · exact le_trans (le_max_right _ _) h1
    · exact h2 b hb

theorem foldl_max_mem_int :
    ∀ (t : List ℤ) (a : ℤ), t.foldl max a ∈ a :: t := by
  intro t
  induction t with
  | nil => intro a; exact List.mem_singleton.mpr rfl
  | cons q t' ih =>
    intro a
    simp only [List.foldl_cons]
    rcases max_choice a q with h | h <;> rw [h]
    · have h1 := ih a
      simp only [List.mem_cons] at h1 ⊢
      tauto
    · have h1 := ih q
      simp only [List.mem_cons] at h1 ⊢
      tauto

theorem maxWeight_nonneg {rows : List Row} {c : String}
    (h : ∀ r ∈ rows, 0 ≤ r.weight) : 0 ≤ maxWeight rows c := by
  rw [maxWeight]
  cases hl : (rows.filter fun r => r.cat_norm == c).map Row.weight with
  | nil => simp [List.max?]
  | cons w ws =>
    simp only [List.max?, Option.getD_some]
    have hmem := foldl_max_mem_int ws w
    rw [← hl] at hmem
    simp only [List.mem_map] at hmem
    obtain ⟨r, hr, he⟩ := hmem
    rw [← he]
    exact h r (List.mem_of_mem_filter hr)

theorem maxWeight_ge {rows : List Row} {r : Row} (hr : r ∈ rows) {c : String}
    (hc : r.cat_norm = c) : r.weight ≤ maxWeight rows c := by
  have hrf : r ∈ rows.filter fun r => r.cat_norm == c :=
    List.mem_filter.mpr ⟨hr, by simpa using hc⟩
  have hw : r.weight ∈ (rows.filter fun r => r.cat_norm == c).map Row.weight :=
    List.mem_map.mpr ⟨r, hrf, rfl⟩
  rw [maxWeight]
  cases hl : (rows.filter fun r => r.cat_norm == c).map Row.weight with
  | nil => rw [hl] at hw; cases hw
  | cons w ws =>
    simp only [List.max?, Option.getD_some]
    rw [hl] at hw
    rcases List.mem_cons.mp hw with h | h
    · subst h
      exact (le_foldl_max ws r.weight).1
    · exact (le_foldl_max ws w).2 _ h

theorem sum_pos_of_mem {l : List ℤ} (h0 : ∀ x ∈ l, 0 ≤ x) {a : ℤ}
    (ha : a ∈ l) (hpos : 0 < a) : 0 < l.sum := by
  induction l with
  | nil => cases ha
  | cons e t ih =>
    have h0' : ∀ x ∈ t, 0 ≤ x := fun x hx => h0 x (List.mem_cons_of_mem _ hx)
    have hts : 0 ≤ t.sum := List.sum_nonneg h0'
    simp only [List.sum_cons]
    rcases List.mem_cons.mp ha with rfl | hat
    · omega
    · have := ih h0' hat
      have he := h0 e (List.mem_cons_self _ _)
      omega

theorem mem_catKeys {rows : List Row} {c : String} :
    c ∈ catKeys rows ↔ c ∈ rows.map Row.cat_norm := by
  rw [catKeys, (List.perm_insertionSort pyStrLE _).mem_iff]
  exact List.mem_dedup

theorem catKeys_nodup (rows : List Row) : (catKeys rows).Nodup := by
  rw [catKeys]
  exact ((List.perm_insertionSort pyStrLE _).nodup_iff).mpr (List.nodup_dedup _)

theorem weightsOf_mem_iff {prefs : List Row} {t : String} {p : String × ℤ} :
    p ∈ weightsOf prefs t ↔
      ∃ c ∈ catKeys (tprefsOf prefs t), p = (c, maxWeight (tprefsOf prefs t) c) := by
  rw [weightsOf, (List.perm_insertionSort quotaNameGE _).mem_iff, List.mem_map]
  constructor
  · rintro ⟨c, hc, he⟩
    exact ⟨c, hc, he.symm⟩
  · rintro ⟨c, hc, he⟩
    exact ⟨c, hc, he.symm⟩

theorem weightsOf_keys_nodup (prefs : List Row) (t : String) :
    ((weightsOf prefs t).map Prod.fst).Nodup := by
  have hperm : List.Perm ((weightsOf prefs t).map Prod.fst)
      (((catKeys (tprefsOf prefs t)).map
        fun c => (c, maxWeight (tprefsOf prefs t) c)).map Prod.fst) :=
    (List.perm_insertionSort quotaNameGE _).map Prod.fst
  rw [hperm.nodup_iff, List.map_map]
  have hid : (Prod.fst ∘ fun c => (c, maxWeight (tprefsOf prefs t) c)) = id := rfl
  rw [hid, List.map_id]
  exact catKeys_nodup _

theorem weightsOf_nonneg {prefs : List Row} {t : String}
    (hw : ∀ r ∈ prefs, 0 ≤ r.weight) : ∀ p ∈ weightsOf prefs t, 0 ≤ p.2 := by
  intro p hp
  obtain ⟨c, _, he⟩ := weightsOf_mem_iff.mp hp
  rw [he]
  exact maxWeight_nonneg fun r hr => hw r (List.mem_of_mem_filter hr)

theorem weightsOf_total_pos {prefs : List Row} {t : String}
    (hw : ∀ r ∈ prefs, 0 ≤ r.weight)
    {r₀ : Row} (hr₀ : r₀ ∈ prefs) (ht₀ : pyLower r₀.traveler_type = pyLower t)
    (hpos : 0 < r₀.weight) : 0 < totalWeight (weightsOf prefs t) := by
  have hr₀tp : r₀ ∈ tprefsOf prefs t :=
    List.mem_filter.mpr ⟨hr₀, by simpa using ht₀⟩
  have hc₀ : r₀.cat_norm ∈ catKeys (tprefsOf prefs t) :=
    mem_catKeys.mpr (List.mem_map.mpr ⟨r₀, hr₀tp, rfl⟩)
  have hmem : (r₀.cat_norm, maxWeight (tprefsOf prefs t) r₀.cat_norm) ∈ weightsOf prefs t :=
    weightsOf_mem_iff.mpr ⟨r₀.cat_norm, hc₀, rfl⟩
  have hmw : 0 < maxWeight (tprefsOf prefs t) r₀.cat_norm :=
    lt_of_lt_of_le hpos (maxWeight_ge hr₀tp rfl)
  rw [totalWeight]
  refine sum_pos_of_mem ?_ (List.mem_map.mpr ⟨_, hmem, rfl⟩) hmw
  intro x hx
  simp only [List.mem_map] at hx
  obtain ⟨q, hq, he⟩ := hx
  rw [← he]
  exact weightsOf_nonneg hw q hq

/-- C3: for a traveler type present in the table with positive total
weight and `days ≥ 1`, the produced category sequence has length exactly
`days*3 - 1` (the quota sum, with the one-slot buffer). -/
theorem sequence_length (prefs : List Row) (t : String) (days : ℤ)
    (hw : ∀ r ∈ prefs, 0 ≤ r.weight)
    (hex : ∃ r ∈ prefs, pyLower r.traveler_type = pyLower t ∧ 0 < r.weight)
    (hd : 1 ≤ days) :
    ((build_weighted_sequence prefs t days).length : ℤ) = days * 3 - 1 := by
  obtain ⟨r₀, hr₀, ht₀, hpos₀⟩ := hex
  have htpne : tprefsOf prefs t ≠ [] :=
    List.ne_nil_of_mem (List.mem_filter.mpr ⟨hr₀, by simpa using ht₀⟩)
  have hTpos := weightsOf_total_pos hw hr₀ ht₀ hpos₀
  have hnk : n_keepOf days = days * 3 - 1 := by
    rw [n_keepOf]
    omega
  have hnkpos : 0 < n_keepOf days := by omega
  have hnk0 : n_keepOf days ≠ 0 := by omega
  set W := weightsOf prefs t with hW
  set Q := proportional_quotas W (n_keepOf days) with hQ
  have hQnn : ∀ p ∈ Q, 0 ≤ p.2 :=
    proportional_quotas_nonneg (weightsOf_nonneg hw) (ne_of_gt hTpos) hnkpos
  have hQsum : (Q.map Prod.snd).sum = n_keepOf days :=
    proportional_quotas_sum (weightsOf_keys_nodup prefs t) (ne_of_gt hTpos) hnkpos
  have hkeys : (Q.map Prod.fst).Nodup := by
    rw [hQ, proportional_quotas_keys]
    exact weightsOf_keys_nodup prefs t
  have htrlen : (buildTrace (n_keepOf days).toNat (posQuotas Q) none).length
      = (n_keepOf days).toNat := by
    apply buildTrace_length
    · exact posQuotas_pos Q
    · exact hkeys.sublist (posQuotas_keys_sublist Q)
    · rw [posQuotas_sum hQnn, hQsum]
      omega
  have htr : build_trace prefs t days
      = buildTrace (n_keepOf days).toNat (posQuotas Q) none := by
    rw [build_trace, if_neg htpne, if_neg hnk0]
  rw [build_weighted_sequence, htr]
  rw [List.take_of_length_le (by rw [List.length_map, htrlen])]
  rw [List.length_map, htrlen]
  omega

/-- Witness for C3 at a concrete preference table. -/
theorem sequence_length_witness :
    ((build_weighted_sequence
        [⟨"solo", "parks", 2⟩, ⟨"solo", "museums", 1⟩] ("solo") 1).length : ℤ) = 1 * 3 - 1 :=
  sequence_length [⟨"solo", "parks", 2⟩, ⟨"solo", "museums", 1⟩] ("solo") 1
    (by decide) (by decide) (by decide)

theorem buildTrace_cons {fuel : ℕ} {quotas : List (String × ℤ)} {last : Option String}
    {st : List (String × ℤ) × String} {rest : List (List (String × ℤ) × String)}
    (h : buildTrace fuel quotas last = st :: rest) :
    st.1 = quotas ∧ ∃ p, pickCat quotas last = some p ∧ st.2 = p.1 ∧
      rest = buildTrace (fuel - 1) (decQuota quotas p.1) (some p.1) := by
  cases fuel with
  | zero => cases h
  | succ n =>
    rw [buildTrace] at h
    cases hp : pickCat quotas last with
    | none =>
      rw [hp] at h
      cases h
    | some p =>
      rw [hp] at h
      cases h
      exact ⟨rfl, p, rfl, rfl, by simp⟩

theorem buildTrace_repeat_forced :
    ∀ (fuel : ℕ) (quotas : List (String × ℤ)) (last : Option String),
      (∀ p ∈ quotas, 0 < p.2) →
      ∀ (i : ℕ) (st st' : List (String × ℤ) × String),
        (buildTrace fuel quotas last).get? i = some st →
        (buildTrace fuel quotas last).get? (i + 1) = some st' →
        st'.2 = st.2 → ∀ q ∈ st'.1, q.1 = st.2 := by
  intro fuel
  induction fuel with
  | zero =>
    intro quotas last _ i st st' h1 _ _
    simp [buildTrace] at h1
  | succ n ih =>
    intro quotas last hpos i st st' h1 h2 heq
    rw [buildTrace] at h1 h2
    cases hp : pickCat quotas last with
    | none =>
      rw [hp] at h1
      simp at h1
    | some p =>
      rw [hp] at h1 h2
      cases i with
      | zero =>
        simp only [List.get?_cons_zero, Option.some.injEq] at h1
        simp only [List.get?_cons_succ] at h2
        cases hrest : buildTrace n (decQuota quotas p.1) (some p.1) with
        | nil =>
          rw [hrest] at h2
          simp at h2
        | cons st2 rest2 =>
          rw [hrest] at h2
          simp only [List.get?_cons_zero, Option.some.injEq] at h2
          obtain ⟨hq2, p', hp', hsnd, _⟩ := buildTrace_cons hrest
          intro q hq
          rw [← h1]
          rw [← h2] at heq hq
          rw [← h1] at heq
          have hp'1 : p'.1 = p.1 := by rw [← hsnd, heq]
          have := pickCat_repeat (decQuota_pos hpos) hp' hp'1
          rw [hq2] at hq
          exact this q hq
      | succ i' =>
        simp only [List.get?_cons_succ] at h1 h2
        exact ih (decQuota quotas p.1) (some p.1) (decQuota_pos hpos) i' st st' h1 h2 heq

/-- C4: if two adjacent entries of the produced sequence are equal, then
at the step that placed the second one every category with remaining
quota equalled the first (the repeat was forced). The trace records, for
each placed entry, the remaining-quota state just before its placement. -/
theorem no_adjacent_repeat_unless_forced (prefs : List Row) (t : String) (days : ℤ)
    (i : ℕ) (c : String)
    (h1 : (build_weighted_sequence prefs t days).get? i = some c)
    (h2 : (build_weighted_sequence prefs t days).get? (i + 1) = some c) :
    ∀ st : List (String × ℤ) × String,
      (build_trace prefs t days).get? (i + 1) = some st →
      ∀ q ∈ st.1, q.1 = c := by
  intro st hst
  rw [build_weighted_sequence] at h1 h2
  have htake : ∀ (j : ℕ) (d : String),
      (((build_trace prefs t days).map Prod.snd).take (n_keepOf days).toNat).get? j = some d →
      ((build_trace prefs t days).map Prod.snd).get? j = some d := by
    intro j d hj
    have hlt : j < (n_keepOf days).toNat := by
      have := List.get?_eq_some.mp hj
      obtain ⟨hlen, _⟩ := this
      have := List.length_take_le (n_keepOf days).toNat
        ((build_trace prefs t days).map Prod.snd)
      omega
    rw [← List.get?_take hlt]
    exact hj
  have h1' := htake i c h1
  have h2' := htake (i + 1) c h2
  rw [List.get?_map] at h1' h2'
  cases ht1 : (build_trace prefs t days).get? i with
  | none => rw [ht1] at h1'; cases h1'
  | some st0 =>
    rw [ht1] at h1'
    rw [hst] at h2'
    simp only [Option.map_some', Option.some.injEq] at h1' h2'
    rw [build_trace] at ht1 hst
    by_cases hc1 : tprefsOf prefs t = []
    · rw [if_pos hc1] at ht1
      simp at ht1
    · rw [if_neg hc1] at ht1 hst
      by_cases hc2 : n_keepOf days = 0
      · rw [if_pos hc2] at ht1
        simp at ht1
      · rw [if_neg hc2] at ht1 hst
        have := buildTrace_repeat_forced (n_keepOf days).toNat
          (posQuotas (proportional_quotas (weightsOf prefs t) (n_keepOf days))) none
          (posQuotas_pos _) i st0 st ht1 hst (by rw [h2', h1'])
        rw [h1'] at this
        exact this

/-- Witness for C4: with a single positive-weight category the sequence
is a forced run `["a", "a"]`, and at the repeat step the only remaining
category is `"a"` itself. -/
theorem no_adjacent_repeat_unless_forced_witness :
    (("a", (1 : ℤ)) : String × ℤ).1 = "a" :=
  no_adjacent_repeat_unless_forced [⟨"s", "a", 1⟩] ("s") 1 0 ("a")
    (by decide) (by decide) ([("a", 1)], "a") (by decide) ("a", 1) (by decide)

/-- C5 evaluation at the failing input: with weights a=3 and b=5 both
categories get quota 1 after largest-remainder allocation, and the first
placement goes to "a" — the tie is broken by category name alone. The
spec's tie-break "higher weight first" would pick "b" (weight 5): the
source's `weight_map.get(kv, -inf)` probes the dict with the whole
`(category, count)` pair instead of the category, so the weight term is
constant and dead. -/
theorem tiebreak_ignores_weight_eval :
    build_weighted_sequence [⟨"x", "a", 3⟩, ⟨"x", "b", 5⟩] ("x") 1 = ["a", "b"] := by
  decide

/-- A daily forecast summary dict as produced by `daily_forecast`
(src/python/planner/weather.py line 37): fields `date`, `avg_temp_c`,
`avg_pop`, `condition`, each possibly `None`. -/
structure Forecast where
  date : Option String
  avg_temp_c : Option ℚ
  avg_pop : Option ℚ
  condition : Option String
deriving DecidableEq

/-- Embeds `INDOOR_CATS` (src/python/planner/weather.py line 40). -/
def INDOOR_CATS : List String :=
  ["museums", "cafes", "shopping_malls", "markets", "temples", "theaters",
   "cultural_centers", "aquariums", "science_centers", "libraries", "art_galleries"]

/-- Embeds `prefer_indoor_if_rain(categories, forecast)`
(src/python/planner/weather.py lines 42-55). `none` models an absent (or
falsy) forecast; a present forecast whose `avg_pop` is `None` also passes
the list through. The threshold `0.5` is exactly representable, so the
float comparison is the rational one. -/
def prefer_indoor_if_rain (categories : List String) (forecast : Option Forecast) :
    List String :=
  match forecast with
  | none => categories
  | some f =>
    match f.avg_pop with
    | none => categories
    | some pop =>
      if (1 : ℚ) / 2 ≤ pop then
        let indoors := categories.filter fun c => decide (c ∈ INDOOR_CATS)
        let outdoors := categories.filter fun c => !decide (c ∈ INDOOR_CATS)
        (indoors ++ outdoors).take 3 ++ categories.drop 3
      else categories

/-- C10: the rain decision reads only `avg_pop`; a present forecast whose
`avg_pop` is `None` leaves the category list unchanged regardless of the
condition string or any other field. -/
theorem rain_decision_reads_avg_pop_only (cats : List String) (f : Forecast)
    (h : f.avg_pop = none) : prefer_indoor_if_rain cats (some f) = cats := by
  simp only [prefer_indoor_if_rain, h]

/-- Witness for C10: a forecast carrying only the condition "Rain". -/
theorem rain_decision_reads_avg_pop_only_witness :
    prefer_indoor_if_rain ["parks", "cafes"] (some ⟨none, none, none, some ("Rain")⟩)
      = ["parks", "cafes"] :=
  rain_decision_reads_avg_pop_only ["parks", "cafes"] ⟨none, none, none, some ("Rain")⟩ rfl

/-- C6 counterexample: on a four-entry list under rain the adapter
duplicates the indoor entry into slot one while keeping it in the
original tail and drops "beaches", so the output is NOT a permutation of
the input. -/
theorem weather_adapter_not_permutation :
    prefer_indoor_if_rain ["parks", "lakes", "beaches", "cafes"]
        (some ⟨none, none, some (6/10), none⟩)
      = ["cafes", "parks", "lakes", "cafes"] ∧
    ¬ List.Perm (prefer_indoor_if_rain ["parks", "lakes", "beaches", "cafes"]
        (some ⟨none, none, some (6/10), none⟩))
      ["parks", "lakes", "beaches", "cafes"] := by
  constructor
  · decide
  · decide

/-- C6 amended: the adapter is the identity unless a forecast is present
with `avg_pop ≥ 0.5`; under rain, entries beyond the third position are
always the original ones, and — for lists of at most three categories,
which is what the pipeline passes (days hold ≤ 3 categories) — the output
is exactly the indoor entries (in order) followed by the outdoor entries
(in order), hence a permutation of the input with indoors first. -/
theorem weather_adapter_amended (cats : List String) (fc : Option Forecast) :
    (prefer_indoor_if_rain cats fc = cats ∨
      ∃ f pop, fc = some f ∧ f.avg_pop = some pop ∧ (1 : ℚ) / 2 ≤ pop) ∧
    (∀ f pop, fc = some f → f.avg_pop = some pop → (1 : ℚ) / 2 ≤ pop →
      (prefer_indoor_if_rain cats fc).drop 3 = cats.drop 3 ∧
      (cats.length ≤ 3 →
        prefer_indoor_if_rain cats fc
          = cats.filter (fun c => decide (c ∈ INDOOR_CATS))
              ++ cats.filter (fun c => !decide (c ∈ INDOOR_CATS)) ∧
        List.Perm (prefer_indoor_if_rain cats fc) cats)) := by
  constructor
  · cases fc with
    | none => left; rfl
    | some f =>
      cases hpop : f.avg_pop with
      | none =>
        left
        simp only [prefer_indoor_if_rain, hpop]
      | some pop =>
        by_cases hle : (1 : ℚ) / 2 ≤ pop
        · right
          exact ⟨f, pop, rfl, hpop, hle⟩
        · left
          simp only [prefer_indoor_if_rain, hpop, if_neg hle]
  · rintro f pop rfl hpop hle
    have hrw : prefer_indoor_if_rain cats (some f)
        = (cats.filter (fun c => decide (c ∈ INDOOR_CATS))
            ++ cats.filter (fun c => !decide (c ∈ INDOOR_CATS))).take 3 ++ cats.drop 3 := by
      simp only [prefer_indoor_if_rain, hpop, if_pos hle]
    have hperm := List.filter_append_perm (fun c => decide (c ∈ INDOOR_CATS)) cats
    have hlen : (cats.filter (fun c => decide (c ∈ INDOOR_CATS))
        ++ cats.filter (fun c => !decide (c ∈ INDOOR_CATS))).length = cats.length :=
      hperm.length_eq
    constructor
    · rw [hrw, List.drop_append_eq_append_drop]
      rw [List.drop_eq_nil_of_le (by
        rw [List.length_take]
        omega)]
      rw [List.nil_append]
      by_cases hc3 : cats.length ≤ 3
      · rw [List.drop_eq_nil_of_le hc3, List.drop_nil]
      · have h3 : ((cats.filter (fun c => decide (c ∈ INDOOR_CATS))
            ++ cats.filter (fun c => !decide (c ∈ INDOOR_CATS))).take 3).length = 3 := by
          rw [List.length_take]
          omega
        rw [h3]
        simp
    · intro hc3
      have htk : (cats.filter (fun c => decide (c ∈ INDOOR_CATS))
          ++ cats.filter (fun c => !decide (c ∈ INDOOR_CATS))).take 3
          = cats.filter (fun c => decide (c ∈ INDOOR_CATS))
            ++ cats.filter (fun c => !decide (c ∈ INDOOR_CATS)) :=
        List.take_of_length_le (by omega)
      have hdrop : cats.drop 3 = [] := List.drop_eq_nil_of_le hc3
      rw [hrw, htk, hdrop, List.append_nil]
      exact ⟨rfl, hperm⟩

/-- Witness for C6 (amended) at a concrete rainy two-entry day. -/
theorem weather_adapter_amended_witness :
    List.Perm (prefer_indoor_if_rain ["parks", "cafes"]
      (some ⟨none, none, some (6/10), none⟩)) ["parks", "cafes"] :=
  (((weather_adapter_amended ["parks", "cafes"]
      (some ⟨none, none, some (6/10), none⟩)).2
    ⟨none, none, some (6/10), none⟩ (6/10) rfl rfl (by norm_num)).2 (by decide)).2

/-- A candidate place dict with the fields the scorer and router read:
coordinates and the rating accessed as `x.get("rating", 0)`
(src/python/planner/pipeline.py lines 16-17); `name` stands for the
candidate's identity. -/
structure Candidate where
  name : String
  lat : ℚ
  lng : ℚ
  rating : Option ℚ
deriving DecidableEq

/-- Abstract interpretation of the transcendental float functions
(`math.sin`, `cos`, `atan2`, `sqrt`, and the constant `pi` inside
`math.radians`) used by `haversine`. The routing and scoring claims are
proved for every interpretation, so nothing depends on properties of the
real trigonometric functions, which have no computable exact embedding. -/
structure TrigModel where
  sin : ℚ → ℚ
  cos : ℚ → ℚ
  atan2 : ℚ → ℚ → ℚ
  sqrt : ℚ → ℚ
  pi : ℚ

/-- Embeds `math.radians(x) = x * pi / 180`. -/
def radiansQ (T : TrigModel) (x : ℚ) : ℚ := x * T.pi / 180

/-- Embeds `haversine(a, b)` (src/python/planner/places.py lines 98-103), Earth
radius `R = 6371.0` km. -/
def haversine (T : TrigModel) (a b : ℚ × ℚ) : ℚ :=
  let R : ℚ := 6371
  let dlat := radiansQ T (b.1 - a.1)
  let dlon := radiansQ T (b.2 - a.2)
  let x := T.sin (dlat / 2) ^ 2
    + T.cos (radiansQ T a.1) * T.cos (radiansQ T b.1) * T.sin (dlon / 2) ^ 2
  2 * R * T.atan2 (T.sqrt x) (T.sqrt (1 - x))

/-- Python's `min(xs)` over a non-empty list: the running minimum,
replaced only on strictly smaller values (ties keep the earlier value). -/
def listMin : List ℚ → ℚ
  | [] => 0
  | a :: t => t.foldl (fun m x => if x < m then x else m) a

/-- Python's `max(xs)` over a non-empty list. -/
def listMax : List ℚ → ℚ
  | [] => 0
  | a :: t => t.foldl (fun m x => if m < x then x else m) a

theorem foldl_min_le (t : List ℚ) :
    ∀ a : ℚ, t.foldl (fun m x => if x < m then x else m) a ≤ a ∧
      ∀ b ∈ t, t.foldl (fun m x => if x < m then x else m) a ≤ b := by
  induction t with
  | nil => intro a; exact ⟨le_refl _, by simp⟩
  | cons q t' ih =>
    intro a
    simp only [List.foldl_cons]
    obtain ⟨h1, h2⟩ := ih (if q < a then q else a)
    have hma : (if q < a then q else a) ≤ a := by
      by_cases h : q < a
      · rw [if_pos h]; exact le_of_lt h
      · rw [if_neg h]
    have hmq : (if q < a then q else a) ≤ q := by
      by_cases h : q < a
      · rw [if_pos h]
      · rw [if_neg h]; exact le_of_not_lt h
    refine ⟨le_trans h1 hma, ?_⟩
    intro b hb
    rcases List.mem_cons.mp hb with rfl | hb
    · exact le_trans h1 hmq
    · exact h2 b hb

theorem le_foldl_max_q (t : List ℚ) :
    ∀ a : ℚ, a ≤ t.foldl (fun m x => if m < x then x else m) a ∧
      ∀ b ∈ t, b ≤ t.foldl (fun m x => if m < x then x else m) a := by
  induction t with
  | nil => intro a; exact ⟨le_refl _, by simp⟩
  | cons q t' ih =>
    intro a
    simp only [List.foldl_cons]
    obtain ⟨h1, h2⟩ := ih (if a < q then q else a)
    have hma : a ≤ (if a < q then q else a) := by
      by_cases h : a < q
      · rw [if_pos h]; exact le_of_lt h
      · rw [if_neg h]
    have hmq : q ≤ (if a < q then q else a) := by
      by_cases h : a < q
      · rw [if_pos h]
      · rw [if_neg h]; exact le_of_not_lt h
    refine ⟨le_trans hma h1, ?_⟩
    intro b hb
    rcases List.mem_cons.mp hb with rfl | hb
    · exact le_trans hmq h1
    · exact h2 b hb

theorem listMin_le {l : List ℚ} : ∀ x ∈ l, listMin l ≤ x := by
  cases l with
  | nil => simp
  | cons a t =>
    intro x hx
    rcases List.mem_cons.mp hx with rfl | hx
    · exact (foldl_min_le t x).1
    · exact (foldl_min_le t a).2 x hx

theorem le_listMax {l : List ℚ} : ∀ x ∈ l, x ≤ listMax l := by
  cases l with
  | nil => simp
  | cons a t =>
    intro x hx
    rcases List.mem_cons.mp hx with rfl | hx
    · exact (le_foldl_max_q t x).1
    · exact (le_foldl_max_q t a).2 x hx

/-- The degenerate-safe min-max normalization
`0 if vmax == vmin else (v - vmin) / (vmax - vmin)`
(src/python/planner/pipeline.py lines 22-23). -/
def minmaxNorm (l : List ℚ) (v : ℚ) : ℚ :=
  if listMax l = listMin l then 0 else (v - listMin l) / (listMax l - listMin l)

theorem minmaxNorm_bounds {l : List ℚ} {v : ℚ} (hv : v ∈ l) :
    0 ≤ minmaxNorm l v ∧ minmaxNorm l v ≤ 1 := by
  rw [minmaxNorm]
  by_cases heq : listMax l = listMin l
  · rw [if_pos heq]
    norm_num
  · rw [if_neg heq]
    have h1 := listMin_le v hv
    have h2 := le_listMax v hv
    have hlt : listMin l < listMax l :=
      lt_of_le_of_ne (le_trans h1 h2) (fun h => heq h.symm)
    constructor
    · exact div_nonneg (by linarith) (by linarith)
    · rw [div_le_one (by linarith)]
      linarith

/-- The distance list `dists` (src/python/planner/pipeline.py line 16). -/
def distsOf (T : TrigModel) (start : ℚ × ℚ) (items : List Candidate) : List ℚ :=
  items.map fun x => haversine T start (x.lat, x.lng)

/-- The rating list `ratings` (src/python/planner/pipeline.py line 17). -/
def ratingsOf (items : List Candidate) : List ℚ :=
  items.map fun x => x.rating.getD 0

/-- Embeds `rn` for one candidate (src/python/planner/pipeline.py line 23). -/
def ratingNorm (items : List Candidate) (r : ℚ) : ℚ := minmaxNorm (ratingsOf items) r

/-- Embeds `dn` for one candidate (src/python/planner/pipeline.py line 22). -/
def distNorm (T : TrigModel) (start : ℚ × ℚ) (items : List Candidate) (d : ℚ) : ℚ :=
  minmaxNorm (distsOf T start items) d

/-- Embeds `score = 0.6 * rn + 0.4 * (1 - dn)` (src/python/planner/pipeline.py
line 24); the float literals 0.6 and 0.4 denote the exact ratios of the
design (3/5 and 2/5). -/
def scoreOf (T : TrigModel) (start : ℚ × ℚ) (items : List Candidate) (x : Candidate) : ℚ :=
  3 / 5 * ratingNorm items (x.rating.getD 0)
    + 2 / 5 * (1 - distNorm T start items (haversine T start (x.lat, x.lng)))

/-- The `scored` list of (score, candidate) pairs in input order
(src/python/planner/pipeline.py lines 20-25); `zip(items, dists, ratings)`
pairs each candidate with its own distance and rating, i.e. a map. -/
def scoredOf (T : TrigModel) (start : ℚ × ℚ) (items : List Candidate) :
    List (ℚ × Candidate) :=
  items.map fun x => (scoreOf T start items x, x)

/-- Order of `scored.sort(key=lambda t: t[0], reverse=True)`: score
descending; the sort is stable, and a stable sort with respect to a total
preorder is unique, so `insertionSort` computes it. -/
abbrev scoreGE (a b : ℚ × Candidate) : Prop := b.1 ≤ a.1

instance : IsTotal (ℚ × Candidate) scoreGE := ⟨fun a b => le_total b.1 a.1⟩

instance : IsTrans (ℚ × Candidate) scoreGE := ⟨fun _ _ _ h1 h2 => le_trans h2 h1⟩

/-- Embeds `score_candidates(start_latlng, items, k)`
(src/python/planner/pipeline.py lines 11-27). -/
def score_candidates (T : TrigModel) (start : ℚ × ℚ) (items : List Candidate) (k : ℕ) :
    List Candidate :=
  if items = [] then []
  else ((List.insertionSort scoreGE (scoredOf T start items)).map Prod.snd).take k

/-- C7: every candidate's score is `0.6*rating_norm + 0.4*(1 - dist_norm)`
and lies in [0,1]; a min-max normalized term is 0 for every candidate
when the ratings (resp. distances) are all equal; and the returned list
is the first `k` of a list `L` that is a permutation of the scored list,
sorted by descending score, and stable (any two equal-score entries keep
their input order) — which determines `L` uniquely. -/
theorem candidate_scorer_contract (T : TrigModel) (start : ℚ × ℚ)
    (items : List Candidate) (k : ℕ) (hne : items ≠ []) :
    (∀ x ∈ items,
        scoreOf T start items x
          = 3 / 5 * ratingNorm items (x.rating.getD 0)
            + 2 / 5 * (1 - distNorm T start items (haversine T start (x.lat, x.lng))) ∧
        0 ≤ scoreOf T start items x ∧ scoreOf T start items x ≤ 1) ∧
    ((listMax (ratingsOf items) = listMin (ratingsOf items) →
        ∀ x ∈ items, ratingNorm items (x.rating.getD 0) = 0) ∧
      (listMax (distsOf T start items) = listMin (distsOf T start items) →
        ∀ x ∈ items, distNorm T start items (haversine T start (x.lat, x.lng)) = 0)) ∧
    (∃ L, List.Perm L (scoredOf T start items) ∧
        List.Sorted scoreGE L ∧
        (∀ a b : ℚ × Candidate,
          List.Sublist [a, b] (scoredOf T start items) → a.1 = b.1 →
            List.Sublist [a, b] L) ∧
        score_candidates T start items k = (L.map Prod.snd).take k) := by
  refine ⟨?_, ⟨?_, ?_⟩, ?_⟩
  · intro x hx
    refine ⟨rfl, ?_⟩
    have hr : x.rating.getD 0 ∈ ratingsOf items := List.mem_map.mpr ⟨x, hx, rfl⟩
    have hd : haversine T start (x.lat, x.lng) ∈ distsOf T start items :=
      List.mem_map.mpr ⟨x, hx, rfl⟩
    have hrb := minmaxNorm_bounds hr
    have hdb := minmaxNorm_bounds hd
    rw [scoreOf]
    constructor
    · have := hrb.1
      have := hdb.2
      rw [ratingNorm, distNorm]
      nlinarith [hrb.1, hrb.2, hdb.1, hdb.2]
    · rw [ratingNorm, distNorm]
      nlinarith [hrb.1, hrb.2, hdb.1, hdb.2]
  · intro heq x _
    rw [ratingNorm, minmaxNorm, if_pos heq]
  · intro heq x _
    rw [distNorm, minmaxNorm, if_pos heq]
  · refine ⟨List.insertionSort scoreGE (scoredOf T start items),
      List.perm_insertionSort scoreGE _,
      List.sorted_insertionSort scoreGE _, ?_, ?_⟩
    · intro a b hsub heq
      exact List.pair_sublist_insertionSort (le_of_eq heq.symm) hsub
    · rw [score_candidates, if_neg hne]

/-- Concrete trigonometry interpretation used only to evaluate witnesses. -/
def trigDemo : TrigModel :=
  { sin := fun x => x, cos := fun x => x, atan2 := fun y x => y + x,
    sqrt := fun x => x, pi := 3 }

theorem candidate_scorer_contract_witness :
    0 ≤ scoreOf trigDemo (0, 0) [⟨"A", 0, 0, some 4⟩, ⟨"B", 1, 1, some 5⟩] ⟨"A", 0, 0, some 4⟩ :=
  (((candidate_scorer_contract trigDemo (0, 0)
      [⟨"A", 0, 0, some 4⟩, ⟨"B", 1, 1, some 5⟩] 1 (by decide)).1
    ⟨"A", 0, 0, some 4⟩ (by decide)).2).1

/-- Python's `min(unused, key=...)`: the first element minimizing the key. -/
def argminBy (key : Candidate → ℚ) : List Candidate → Option Candidate
  | [] => none
  | h :: t => some (t.foldl (fun best p => if key p < key best then p else best) h)

/-- The `while unused:` loop of `nearest_route`
(src/python/planner/places.py lines 105-113); each pass appends the
nearest unused candidate and removes it (`unused.remove(nxt)` removes the
first element equal to `nxt`), so the number of remaining passes is the
length of `unused`. -/
def nearestLoop (T : TrigModel) : ℕ → ℚ × ℚ → List Candidate → List Candidate
  | 0, _, _ => []
  | fuel + 1, cur, unused =>
    match argminBy (fun p => haversine T cur (p.lat, p.lng)) unused with
    | none => []
    | some nxt => nxt :: nearestLoop T fuel (nxt.lat, nxt.lng) (unused.erase nxt)

/-- Embeds `nearest_route(start_latlng, points)` (src/python/planner/places.py
lines 105-113). -/
def nearest_route (T : TrigModel) (start : ℚ × ℚ) (points : List Candidate) :
    List Candidate :=
  nearestLoop T points.length start points

theorem argminBy_mem {key : Candidate → ℚ} {l : List Candidate} {c : Candidate}
    (h : argminBy key l = some c) : c ∈ l := by
  cases l with
  | nil => cases h
  | cons a t =>
    simp only [argminBy, Option.some.injEq] at h
    have := foldl_max_mem (fun best p => if key p < key best then p else best)
      (by
        intro x y
        by_cases hxy : key y < key x
        · right; simp [hxy]
        · left; simp [hxy]) t a
    rw [h] at this
    exact this

theorem foldl_min_key (key : Candidate → ℚ) (t : List Candidate) :
    ∀ a : Candidate,
      key (t.foldl (fun best p => if key p < key best then p else best) a) ≤ key a ∧
      ∀ b ∈ t, key (t.foldl (fun best p => if key p < key best then p else best) a) ≤ key b := by
  induction t with
  | nil => intro a; exact ⟨le_refl _, by simp⟩
  | cons q t' ih =>
    intro a
    simp only [List.foldl_cons]
    obtain ⟨h1, h2⟩ := ih (if key q < key a then q else a)
    have hma : key (if key q < key a then q else a) ≤ key a := by
      by_cases h : key q < key a
      · rw [if_pos h]; exact le_of_lt h
      · rw [if_neg h]
    have hmq : key (if key q < key a then q else a) ≤ key q := by
      by_cases h : key q < key a
      · rw [if_pos h]
      · rw [if_neg h]; exact le_of_not_lt h
    refine ⟨le_trans h1 hma, ?_⟩
    intro b hb
    rcases List.mem_cons.mp hb with rfl | hb
    · exact le_trans h1 hmq
    · exact h2 b hb

theorem argminBy_min {key : Candidate → ℚ} {l : List Candidate} {c : Candidate}
    (h : argminBy key l = some c) : ∀ p ∈ l, key c ≤ key p := by
  cases l with
  | nil => cases h
  | cons a t =>
    simp only [argminBy, Option.some.injEq] at h
    intro p hp
    rcases List.mem_cons.mp hp with rfl | hp
    · rw [← h]
      exact (foldl_min_key key t p).1
    · rw [← h]
      exact (foldl_min_key key t a).2 p hp

theorem nearestLoop_perm (T : TrigModel) :
    ∀ (fuel : ℕ) (cur : ℚ × ℚ) (unused : List Candidate),
      unused.length ≤ fuel → List.Perm (nearestLoop T fuel cur unused) unused := by
  intro fuel
  induction fuel with
  | zero =>
    intro cur unused hlen
    have : unused = [] := List.eq_nil_of_length_eq_zero (by omega)
    rw [this]
    exact List.Perm.refl _
  | succ n ih =>
    intro cur unused hlen
    cases hu : unused with
    | nil => rw [nearestLoop]; rfl
    | cons a t =>
      rw [nearestLoop]
      cases hmin : argminBy (fun p => haversine T cur (p.lat, p.lng)) (a :: t) with
      | none => cases hmin
      | some nxt =>
        have hmem : nxt ∈ a :: t := argminBy_mem hmin
        have hlen2 : ((a :: t).erase nxt).length ≤ n := by
          rw [List.length_erase_of_mem hmem]
          simp only [List.length_cons]
          rw [hu] at hlen
          simp only [List.length_cons] at hlen
          omega
        have hperm := ih (nxt.lat, nxt.lng) ((a :: t).erase nxt) hlen2
        exact (hperm.cons nxt).trans (List.perm_cons_erase hmem).symm

/-- C8: for every distance interpretation, the route is a permutation of
the input (every candidate appears exactly once) of the same length, and
it is built greedily: the head is an unvisited candidate of minimum
haversine distance from the reference, and the tail is the route of the
remaining candidates restarted from the chosen candidate's coordinates. -/
theorem router_contract (T : TrigModel) (start : ℚ × ℚ) (points : List Candidate) :
    List.Perm (nearest_route T start points) points ∧
    (nearest_route T start points).length = points.length ∧
    (points ≠ [] → ∃ nxt ∈ points,
      (∀ p ∈ points,
        haversine T start (nxt.lat, nxt.lng) ≤ haversine T start (p.lat, p.lng)) ∧
      nearest_route T start points
        = nxt :: nearest_route T (nxt.lat, nxt.lng) (points.erase nxt)) := by
  have hperm : List.Perm (nearest_route T start points) points :=
    nearestLoop_perm T points.length start points (le_refl _)
  refine ⟨hperm, hperm.length_eq, ?_⟩
  intro hne
  obtain ⟨a, t, hp⟩ : ∃ a t, points = a :: t := by
    cases points with
    | nil => exact absurd rfl hne
    | cons a t => exact ⟨a, t, rfl⟩
  subst hp
  cases hmin : argminBy (fun p => haversine T start (p.lat, p.lng)) (a :: t) with
  | none => cases hmin
  | some nxt =>
    refine ⟨nxt, argminBy_mem hmin, ?_, ?_⟩
    · intro p hpmem
      exact argminBy_min hmin p hpmem
    · rw [nearest_route, List.length_cons, nearestLoop, hmin]
      rw [nearest_route, List.length_erase_of_mem (argminBy_mem hmin)]
      simp only [List.length_cons]
      rfl

theorem router_contract_witness :
    ∃ nxt ∈ [Candidate.mk ("A") 0 0 (some 4), Candidate.mk ("B") 1 1 (some 5)],
      (∀ p ∈ [Candidate.mk ("A") 0 0 (some 4), Candidate.mk ("B") 1 1 (some 5)],
        haversine trigDemo (0, 0) (nxt.lat, nxt.lng) ≤ haversine trigDemo (0, 0) (p.lat, p.lng)) ∧
      nearest_route trigDemo (0, 0) [Candidate.mk ("A") 0 0 (some 4), Candidate.mk ("B") 1 1 (some 5)]
        = nxt :: nearest_route trigDemo (nxt.lat, nxt.lng)
            ([Candidate.mk ("A") 0 0 (some 4), Candidate.mk ("B") 1 1 (some 5)].erase nxt) :=
  (router_contract trigDemo (0, 0)
    [Candidate.mk ("A") 0 0 (some 4), Candidate.mk ("B") 1 1 (some 5)]).2.2 (by decide)

/-- A day's plan dict as assembled by `generate_itinerary`
(src/python/planner/pipeline.py lines 89-98). In the source the routed
elements — and hence the `place` of each slot — are the per-category
shortlists (lists of candidate dicts), because `chosen` collects
`sl["picks"]` per category (line 79). -/
structure DayPlan where
  date : Option String
  weather : Option Forecast
  categories : List String
  slots : List (String × List Candidate)
  alternatives : List (String × List Candidate)
deriving DecidableEq

instance {ε α : Type} [DecidableEq ε] [DecidableEq α] : DecidableEq (Except ε α) :=
  fun a b =>
    match a, b with
    | Except.ok x, Except.ok y =>
      if h : x = y then isTrue (by rw [h]) else isFalse (by intro he; cases he; exact h rfl)
    | Except.error x, Except.error y =>
      if h : x = y then isTrue (by rw [h]) else isFalse (by intro he; cases he; exact h rfl)
    | Except.ok _, Except.error _ => isFalse (by intro he; cases he)
    | Except.error _, Except.ok _ => isFalse (by intro he; cases he)

/-- The call `nearest_route(latlng, chosen)` (src/python/planner/pipeline.py
line 80) as it dynamically executes: each element of `chosen` is a LIST of
candidate dicts, so the selection key `haversine(cur, (p["lat"], p["lng"]))`
indexes a list with the string "lat" and raises `TypeError` as soon as the
loop runs; with no elements the loop body never runs and the empty route
is returned. -/
def nearest_route_dyn (chosen : List (List Candidate)) :
    Except String (List (List Candidate)) :=
  match chosen with
  | [] => Except.ok []
  | _ :: _ => Except.error ("TypeError")

/-- One iteration of the per-day loop of `generate_itinerary`
(src/python/planner/pipeline.py lines 65-98), with the external inputs
injected: the stay coordinates, the forecast list, and the per-category
candidate search. -/
def dayPlanOf (T : TrigModel) (latlng : ℚ × ℚ) (forecasts : List Forecast)
    (candFn : String → List Candidate) (i : ℕ) (chunk : List String) :
    Except String DayPlan :=
  let cats0 := chunk.filter fun c => decide (c ≠ "")
  let fcast := forecasts[i]?
  let cats := prefer_indoor_if_rain cats0 fcast
  let shortlists := cats.filterMap fun c =>
    let picks := score_candidates T latlng (candFn c) 3
    if picks = [] then none else some (c, picks)
  let chosen := (shortlists.map fun sl => sl.2).filter fun l => decide (l ≠ [])
  match nearest_route_dyn chosen with
  | Except.error e => Except.error e
  | Except.ok route =>
    Except.ok
      ⟨(forecasts[i]?).bind fun f => f.date,
       fcast,
       cats,
       List.zip ["Morning", "Afternoon", "Evening"] route,
       shortlists.map fun sl => (sl.1, (sl.2.drop 1).take 2)⟩

/-- The `for i, cats in enumerate(per_day_categories)` loop
(src/python/planner/pipeline.py line 65), aborting on the first raised
exception. -/
def goDays (T : TrigModel) (latlng : ℚ × ℚ) (forecasts : List Forecast)
    (candFn : String → List Candidate) :
    List (ℕ × List String) → Except String (List DayPlan)
  | [] => Except.ok []
  | (i, chunk) :: rest =>
    match dayPlanOf T latlng forecasts candFn i chunk with
    | Except.error e => Except.error e
    | Except.ok dp =>
      match goDays T latlng forecasts candFn rest with
      | Except.error e => Except.error e
      | Except.ok l => Except.ok (dp :: l)

/-- Embeds `generate_itinerary(...)` (src/python/planner/pipeline.py lines
50-113) restricted to its per-day plan construction, with the network
collaborators injected: geocoding is bypassed by passing `latlng`
directly, `daily_forecast` by the `forecasts` list,
`candidates_for_category` by `candFn`, and `use_groq=False`. -/
def generate_itinerary (T : TrigModel) (prefs : List Row) (traveler_type : String)
    (days : ℤ) (latlng : ℚ × ℚ) (forecasts : List Forecast)
    (candFn : String → List Candidate) : Except String (List DayPlan) :=
  let seq := build_weighted_sequence prefs traveler_type days
  let per_day := sequence_to_days seq days
  goDays T latlng forecasts candFn per_day.enum

/-- C9 evaluation: (1) as soon as any category has a non-empty shortlist,
`generate_itinerary` raises `TypeError`, because the list of per-category
shortlists is fed to `nearest_route`, whose distance key reads `p["lat"]`
on a list — no DayPlan is produced at all; (2) with no candidates, the
day's DayPlan is produced but its slots are `zip`-truncated to the empty
route: no slot is ever marked "free exploration" (the string does not
occur in the assembler). -/
theorem assembler_eval :
    generate_itinerary trigDemo [⟨"solo", "cafes", 5⟩] ("solo") 1 (0, 0) []
        (fun c => if c = "cafes" then [⟨"A", 0, 0, some 4⟩] else [])
      = Except.error ("TypeError") ∧
    generate_itinerary trigDemo [⟨"solo", "cafes", 5⟩] ("solo") 1 (0, 0) []
        (fun _ => [])
      = Except.ok [⟨none, none, ["cafes", "cafes"], [], []⟩] := by
  constructor
  · decide
  · decide

end TravelPlanner
